import Mathlib

/-!
Verification of the `just-a-tag` crate: the `Tag` validator (`src/lib.rs`)
and the `TagUnion` engine (`src/tag_union.rs`), shallowly embedded in Lean.
Strings are modelled as lists of characters; the Rust `str::len`, a UTF-8
byte count, is modelled by `utf8Length`, the sum of the characters'
UTF-8 sizes.
-/

namespace JustATag

/-- A string, modelled as its list of characters. -/
abbrev Str := List Char

/-- Converts a Lean string literal into the `Str` model. -/
def strL (s : String) : Str := s.toList

/-- The UTF-8 byte length of a string, as computed by the Rust `str::len`:
the sum of the UTF-8 sizes of its characters (`Char.utf8Size` is exactly
the Rust `char::len_utf8`). -/
def utf8Length (s : Str) : Nat := (s.map Char.utf8Size).sum

/-- The error type of tag parsing, from `TagFromStringError` in `src/lib.rs`. -/
inductive TagFromStringError where
  | MustStartAlphabetic : Char → TagFromStringError
  | MustEndAlphanumeric : Char → TagFromStringError
  | InvalidCharacter : Char → TagFromStringError
  | LimitExceeded : Nat → TagFromStringError
deriving DecidableEq

/-- A tag, from `struct Tag(String)` in `src/lib.rs`: a wrapper around a string. -/
structure Tag where
  val : Str
deriving DecidableEq

/-- `Tag::EMPTY`: the empty tag. -/
def Tag.EMPTY : Tag := ⟨[]⟩

/-- `Tag::MAX_LEN`: the maximum length of a tag. -/
def Tag.MAX_LEN : Nat := 63

/-- The `while let Some(c) = chars.next()` loop of `Tag::from_str`
(`src/lib.rs` lines 146-153): each character must be an ASCII digit, an
ASCII lowercase letter, or a hyphen, else `InvalidCharacter`; the loop
tracks the previously seen character and returns it at the end.
`Char.isDigit` and `Char.isLower` test exactly the ASCII ranges that the
Rust `is_ascii_digit` and `is_ascii_lowercase` test. -/
def Tag.scan (previous : Char) : Str → Except TagFromStringError Char
  | [] => .ok previous
  | c :: rest =>
    if !c.isDigit && !c.isLower && c != '-' then
      .error (.InvalidCharacter c)
    else
      Tag.scan c rest

/-- `Tag::from_str` (`src/lib.rs` lines 130-160): empty input yields the
empty tag; input whose UTF-8 byte length (the Rust `value.len()`) exceeds
`MAX_LEN` fails with `LimitExceeded` of that byte length; a first
character that is not an ASCII lowercase letter fails with
`MustStartAlphabetic`; then the remaining characters are scanned; finally
the last seen character must be an ASCII lowercase letter, else
`MustEndAlphanumeric`. The `[]` arm of the inner match is unreachable
because the emptiness test has already returned. -/
def Tag.from_str (value : Str) : Except TagFromStringError Tag :=
  if value.isEmpty then .ok Tag.EMPTY
  else if Tag.MAX_LEN < utf8Length value then .error (.LimitExceeded (utf8Length value))
  else
    match value with
    | [] => .ok Tag.EMPTY
    | first :: rest =>
      if !first.isLower then .error (.MustStartAlphabetic first)
      else
        match Tag.scan first rest with
        | .error e => .error e
        | .ok previous =>
          if !previous.isLower then .error (.MustEndAlphanumeric previous)
          else .ok ⟨value⟩

/-- `Tag::from_str` with the panic made explicit: the Rust source takes the
first character with `chars.next().expect("tag is not empty")`, which
panics when the iterator is empty. Here that extraction is `value.head?`,
and the panic is the `none` result. -/
def Tag.from_str_impl (value : Str) : Option (Except TagFromStringError Tag) :=
  if value.isEmpty then some (.ok Tag.EMPTY)
  else if Tag.MAX_LEN < utf8Length value then
    some (.error (.LimitExceeded (utf8Length value)))
  else
    match value.head? with
    | none => none
    | some first =>
      if !first.isLower then some (.error (.MustStartAlphabetic first))
      else
        match Tag.scan first value.tail with
        | .error e => some (.error e)
        | .ok previous =>
          if !previous.isLower then some (.error (.MustEndAlphanumeric previous))
          else some (.ok ⟨value⟩)

/-- Decidable equality for `Except`, used to evaluate parse results. -/
def exceptDecEq {ε α : Type} [DecidableEq ε] [DecidableEq α] :
    DecidableEq (Except ε α) := fun a b =>
  match a, b with
  | .error e, .error f =>
    if h : e = f then isTrue (by rw [h]) else isFalse (fun c => by cases c; exact h rfl)
  | .error _, .ok _ => isFalse (fun c => by cases c)
  | .ok _, .error _ => isFalse (fun c => by cases c)
  | .ok x, .ok y =>
    if h : x = y then isTrue (by rw [h]) else isFalse (fun c => by cases c; exact h rfl)

attribute [instance] exceptDecEq

/-- Tags are ordered by their wrapped strings, as in the Rust
`#[derive(Ord)]` on `Tag`, which compares the wrapped `String`s. -/
instance : LinearOrder Tag :=
  LinearOrder.lift' Tag.val (fun a b h => by cases a; cases b; simpa using h)

/-- The error type of union parsing, from `TagUnionFromStringError` in
`src/tag_union.rs`: a wrapper around a tag-level error. -/
inductive TagUnionFromStringError where
  | InvalidTag : TagFromStringError → TagUnionFromStringError
deriving DecidableEq

/-- A tag union, from `struct TagUnion(HashSet<Tag>)` in `src/tag_union.rs`:
a finite set of tags. -/
structure TagUnion where
  tags : Finset Tag
deriving DecidableEq

/-- The fragment pipeline of `TagUnion::from_str` (`src/tag_union.rs` lines
103-106): split the input on `'+'`, drop fragments containing `'+'`
(defensively; splitting makes this a no-op), and drop empty fragments. -/
def unionFragments (value : Str) : List Str :=
  ((value.splitOn '+').filter (fun c => !(c.contains '+'))).filter (fun c => !c.isEmpty)

/-- The deduplicated fragment names collected into the `HashSet<String>` of
`TagUnion::from_str` (`src/tag_union.rs` lines 104-108), as a duplicate-free
list in first-occurrence order. -/
def unionNames (value : Str) : List Str := (unionFragments value).dedup

/-- The validation loop of `TagUnion::from_str` (`src/tag_union.rs` lines
114-117): validate each name with `Tag::from_str`, aborting on the first
failure, and collect the resulting tags into a set. -/
def collectTags : List Str → Except TagFromStringError (Finset Tag)
  | [] => .ok ∅
  | n :: rest =>
    match Tag.from_str n with
    | .error e => .error e
    | .ok t =>
      match collectTags rest with
      | .error e => .error e
      | .ok ts => .ok (insert t ts)

/-- `TagUnion::from_str` (`src/tag_union.rs` lines 97-120): empty input
yields the empty union; if no names survive filtering, the empty union;
otherwise every name is validated and a failure is wrapped in
`InvalidTag`. -/
def TagUnion.from_str (value : Str) : Except TagUnionFromStringError TagUnion :=
  if value.isEmpty then .ok ⟨∅⟩
  else
    if (unionNames value).isEmpty then .ok ⟨∅⟩
    else
      match collectTags (unionNames value) with
      | .error e => .error (.InvalidTag e)
      | .ok tags => .ok ⟨tags⟩

/-- `TagUnion::matches_set` (`src/tag_union.rs` lines 66-68): the union's
tag set is a subset of the candidate set. -/
def TagUnion.matches_set (u : TagUnion) (values : Finset Tag) : Bool :=
  decide (u.tags ⊆ values)

/-- `MatchesAnyTagUnion for Vec<TagUnion>` (`src/tag_union.rs` lines
155-159): some union in the list matches the candidate set. -/
def matchesSetAny (us : List TagUnion) (values : Finset Tag) : Bool :=
  us.any (fun s => s.matches_set values)

/-- `TagUnion::insert` (`src/tag_union.rs` lines 75-77): inserts a tag,
returning whether it was newly added together with the updated union. -/
def TagUnion.insert (u : TagUnion) (tag : Tag) : Bool × TagUnion :=
  (decide (tag ∉ u.tags), ⟨Insert.insert tag u.tags⟩)

/-- A union built by inserting the tags of a list, one by one, into the
empty union. -/
def buildUnion (l : List Tag) : TagUnion :=
  l.foldl (fun u t => (u.insert t).2) ⟨∅⟩

/-- The sorted member list built by `impl Hash for TagUnion`
(`src/tag_union.rs` lines 169-177): the members collected into a vector
and sorted. -/
def TagUnion.sortedTags (u : TagUnion) : List Tag :=
  u.tags.sort (· ≤ ·)

/-- The hashing fold of `impl Hash for TagUnion` (`src/tag_union.rs` lines
169-177): each tag of the sorted member list is folded into the hasher
state in order; the hasher is abstracted as a fold function and an initial
state. -/
def TagUnion.hashFold {α : Type} (step : α → Tag → α) (init : α) (u : TagUnion) : α :=
  u.sortedTags.foldl step init

/-- The regular expression `[a-z][a-z0-9-]*[a-z0-9]` from the claim: first
character a lowercase ASCII letter, last character a lowercase ASCII letter
or ASCII digit, every middle character a lowercase ASCII letter, digit, or
hyphen. The pattern requires at least two characters. -/
def matchesTagRegex (s : Str) : Bool :=
  match s with
  | [] => false
  | _ :: [] => false
  | first :: rest =>
    first.isLower
      && rest.dropLast.all (fun c => c.isLower || c.isDigit || c == '-')
      && ((rest.getLastD ' ').isLower || (rest.getLastD ' ').isDigit)

/-- The regular expression `[a-z][a-z0-9-]*[a-z]`: like `matchesTagRegex`
but the last character must be a lowercase ASCII letter, matching the end
check that the code actually performs. -/
def matchesTagRegexLower (s : Str) : Bool :=
  match s with
  | [] => false
  | _ :: [] => false
  | first :: rest =>
    first.isLower
      && rest.dropLast.all (fun c => c.isLower || c.isDigit || c == '-')
      && (rest.getLastD ' ').isLower

/-- The validation rules of `Tag::from_str` written as a priority list:
empty input succeeds; then the byte-length bound; then the start-character
rule; then the first scanned character violating the character-class rule;
then the last character of the input must pass the end rule; else success.
Stated with `List.find?` and `List.getLastD` so that "the first violated
rule" is explicit. -/
def Tag.orderedCheck (value : Str) : Except TagFromStringError Tag :=
  if value.isEmpty then .ok Tag.EMPTY
  else if Tag.MAX_LEN < utf8Length value then .error (.LimitExceeded (utf8Length value))
  else
    match value with
    | [] => .ok Tag.EMPTY
    | first :: rest =>
      if !first.isLower then .error (.MustStartAlphabetic first)
      else
        match rest.find? (fun c => !c.isDigit && !c.isLower && c != '-') with
        | some c => .error (.InvalidCharacter c)
        | none =>
          if !(rest.getLastD first).isLower then
            .error (.MustEndAlphanumeric (rest.getLastD first))
          else .ok ⟨value⟩

/-! ### Helper lemmas about the tag validator -/

/-- The scan loop, expressed through the first offending character and the
last element of the scanned list. -/
theorem scan_eq_find (l : Str) (previous : Char) :
    Tag.scan previous l =
      match l.find? (fun c => !c.isDigit && !c.isLower && c != '-') with
      | some c => .error (.InvalidCharacter c)
      | none => .ok (l.getLastD previous) := by
  induction l generalizing previous with
  | nil => rfl
  | cons c rest ih =>
    simp only [Tag.scan, List.find?]
    by_cases h : (!c.isDigit && !c.isLower && c != '-') = true
    · rw [if_pos h, h]
    · rw [Bool.not_eq_true] at h
      rw [if_neg (by simp [h]), h, ih]
      cases hfind : List.find? (fun c => !c.isDigit && !c.isLower && c != '-') rest with
      | some c2 => rfl
      | none => rw [List.getLastD_cons]

/-- A successful parse wraps the input string unchanged. -/
theorem from_str_ok_val {n : Str} {t : Tag} (h : Tag.from_str n = .ok t) : t.val = n := by
  unfold Tag.from_str at h
  by_cases he : n.isEmpty
  · rw [if_pos he] at h
    injection h with h'
    subst h'
    simpa [Tag.EMPTY] using (List.isEmpty_iff.mp he).symm
  · rw [if_neg he] at h
    by_cases hl : Tag.MAX_LEN < utf8Length n
    · rw [if_pos hl] at h; exact Except.noConfusion h
    · rw [if_neg hl] at h
      have hne : n ≠ [] := by simpa [List.isEmpty_iff] using he
      obtain ⟨first, rest, rfl⟩ := List.exists_cons_of_ne_nil hne
      by_cases hf : first.isLower
      · simp only [hf, Bool.not_true, Bool.false_eq_true, if_false] at h
        cases hs : Tag.scan first rest with
        | error e => rw [hs] at h; exact Except.noConfusion h
        | ok previous =>
          rw [hs] at h
          by_cases hp : previous.isLower
          · simp only [hp, Bool.not_true, Bool.false_eq_true, if_false] at h
            injection h with h'
            subst h'
            rfl
          · simp only [hp, Bool.not_false, if_true] at h
            exact Except.noConfusion h
      · simp only [hf, Bool.not_false, if_true] at h
        exact Except.noConfusion h

/-! ### Claim theorems about the tag validator -/

/-- Claim C4: `Tag::from_str` evaluates its checks in the fixed order
empty, length, start character, per-character scan tracking the last seen
character, end character; it equals the priority-ordered rule list
`Tag.orderedCheck`, so exactly one error is returned, the one of the first
violated rule. -/
theorem from_str_eq_orderedCheck (v : Str) : Tag.from_str v = Tag.orderedCheck v := by
  cases v with
  | nil => rfl
  | cons first rest =>
    unfold Tag.from_str Tag.orderedCheck
    simp only [List.isEmpty_cons, Bool.false_eq_true, if_false]
    split
    · rfl
    · split
      · rfl
      · rw [scan_eq_find]
        cases hfind : List.find? (fun c => !c.isDigit && !c.isLower && c != '-') rest with
        | some c => rfl
        | none => rfl

/-- Witness for C4 at a concrete input. -/
theorem from_str_eq_orderedCheck_witness :
    Tag.from_str (strL "a-b") = Tag.orderedCheck (strL "a-b") :=
  from_str_eq_orderedCheck (strL "a-b")

/-- Claim C9: `Tag::from_str` is total and never panics: the model with the
explicit `expect` panic always returns `some`, agreeing with the total
function, because the head extraction is guarded by the empty-input early
return. -/
theorem from_str_impl_total (v : Str) : Tag.from_str_impl v = some (Tag.from_str v) := by
  cases v with
  | nil => rfl
  | cons first rest =>
    unfold Tag.from_str_impl Tag.from_str
    simp only [List.head?_cons, List.tail_cons, List.isEmpty_cons, Bool.false_eq_true, if_false]
    split
    · rfl
    · split
      · rfl
      · cases hs : Tag.scan first rest with
        | error e => rfl
        | ok previous => by_cases hp : previous.isLower <;> simp [hp]

/-- Witness for C9 at a concrete input. -/
theorem from_str_impl_total_witness :
    Tag.from_str_impl (strL "a") = some (Tag.from_str (strL "a")) :=
  from_str_impl_total (strL "a")

/-- Claim C8 counterexample: on 32 copies of `é` — a 32-character string
whose UTF-8 byte length is 64 — `Tag::from_str` fails with
`LimitExceeded(64)`, although the input is not longer than 63 characters
and 64 is not its character count: the Rust `value.len()` counts UTF-8
bytes, not characters. -/
theorem limit_byte_counterexample :
    Tag.from_str (List.replicate 32 'é') = .error (.LimitExceeded 64)
      ∧ (List.replicate 32 'é').length = 32
      ∧ ¬ 63 < (List.replicate 32 'é').length :=
  ⟨by decide, by decide, by decide⟩

/-- Claim C8 (amended): for every non-empty input, `Tag::from_str` fails
with `LimitExceeded n` exactly when the input's UTF-8 byte length (the
Rust `value.len()`) exceeds 63, and then `n` is that byte length. -/
theorem from_str_limit_iff (s : Str) (hne : s ≠ []) (n : Nat) :
    Tag.from_str s = .error (.LimitExceeded n) ↔
      63 < utf8Length s ∧ n = utf8Length s := by
  unfold Tag.from_str
  have he : ¬ s.isEmpty := by simpa [List.isEmpty_iff] using hne
  rw [if_neg (by simpa using he)]
  by_cases hl : Tag.MAX_LEN < utf8Length s
  · rw [if_pos hl]
    have hl' : 63 < utf8Length s := by simpa [Tag.MAX_LEN] using hl
    simp [hl', eq_comm]
  · rw [if_neg hl]
    have hl' : ¬ 63 < utf8Length s := by simpa [Tag.MAX_LEN] using hl
    simp only [hl', false_and, iff_false]
    obtain ⟨first, rest, rfl⟩ := List.exists_cons_of_ne_nil hne
    by_cases hf : first.isLower
    · simp only [hf, Bool.not_true, Bool.false_eq_true, if_false]
      rw [scan_eq_find]
      cases hfind : rest.find? (fun c => !c.isDigit && !c.isLower && c != '-') with
      | some c => simp
      | none =>
        by_cases hp : (rest.getLastD first).isLower
        · simp only [hp, Bool.not_true, Bool.false_eq_true, if_false]
          intro hcl
          exact Except.noConfusion hcl
        · simp only [Bool.not_eq_true] at hp
          simp only [hp, Bool.not_false, if_true]
          intro hcl
          injection hcl with h2
          exact TagFromStringError.noConfusion h2
    · simp [hf]

/-- Witness for C8: a 64-character input fails with `LimitExceeded 64`. -/
theorem from_str_limit_iff_witness :
    List.replicate 64 'a' ≠ ([] : Str) ∧
      Tag.from_str (List.replicate 64 'a') = .error (.LimitExceeded 64) :=
  ⟨by decide, (from_str_limit_iff (List.replicate 64 'a') (by decide) 64).mpr (by decide)⟩

/-- A character admitted by the regex character class is not rejected by
the scan loop. -/
theorem good_not_bad {x : Char} (hx : (x.isLower || x.isDigit || x == '-') = true) :
    (!x.isDigit && !x.isLower && x != '-') = false := by
  cases hl : x.isLower <;> cases hd : x.isDigit <;> cases he : (x == '-') <;>
    simp_all [bne]

/-- In a tail whose leading characters are in the regex character class and
whose last character is a lowercase letter, every character passes the
scan loop. -/
theorem regex_tail_all_good (rest : Str) (d : Char)
    (hmid : rest.dropLast.all (fun c => c.isLower || c.isDigit || c == '-') = true)
    (hlast : (rest.getLastD d).isLower = true) :
    ∀ x ∈ rest, (!x.isDigit && !x.isLower && x != '-') = false := by
  induction rest generalizing d with
  | nil => intro x hx; cases hx
  | cons c rs ih =>
    intro x hx
    cases rs with
    | nil =>
      have hx' : x = c := by simpa using hx
      subst hx'
      have hc : x.isLower = true := by simpa [List.getLastD_cons] using hlast
      exact good_not_bad (by simp [hc])
    | cons c2 rs2 =>
      have hmid' := hmid
      simp only [List.dropLast_cons₂, List.all_cons, Bool.and_eq_true] at hmid'
      obtain ⟨hc, hrest⟩ := hmid'
      rcases List.mem_cons.mp hx with rfl | hx2
      · exact good_not_bad hc
      · exact ih c hrest (by simpa [List.getLastD_cons] using hlast) x hx2

/-- A character nowhere rejected by the scan is in the regex character
class. -/
theorem class_of_not_bad {x : Char}
    (h : (!x.isDigit && !x.isLower && x != '-') = false) :
    (x.isLower || x.isDigit || x == '-') = true := by
  cases hl : x.isLower <;> cases hd : x.isDigit <;> cases he : (x == '-') <;>
    simp_all [bne]

/-- Characters of the regex character class are ASCII: they occupy one
UTF-8 byte. -/
theorem utf8Size_eq_one_of_class {c : Char}
    (hc : (c.isLower || c.isDigit || c == '-') = true) : c.utf8Size = 1 := by
  have h127 : c.val ≤ UInt32.ofNatCore 0x7F (by decide) := by
    by_cases h : c.isLower = true
    · simp only [Char.isLower, Bool.and_eq_true, decide_eq_true_eq] at h
      exact Nat.le_trans h.2 (by decide)
    · by_cases h2 : c.isDigit = true
      · simp only [Char.isDigit, Bool.and_eq_true, decide_eq_true_eq] at h2
        exact Nat.le_trans h2.2 (by decide)
      · have h3 : (c == '-') = true := by
          revert hc
          cases hcl : c.isLower <;> cases hcd : c.isDigit <;> simp_all
        have hdash : c = '-' := by simpa using h3
        subst hdash
        decide
  unfold Char.utf8Size
  rw [if_pos h127]

/-- A map that is one on every element sums to the list's length. -/
theorem sum_map_ones {f : Char → Nat} :
    ∀ (l : Str), (∀ x ∈ l, f x = 1) → (l.map f).sum = l.length := by
  intro l
  induction l with
  | nil => intro _; rfl
  | cons c rest ih =>
    intro h
    simp only [List.map_cons, List.sum_cons, List.length_cons,
      ih (fun x hx => h x (List.mem_cons_of_mem _ hx)), h c (List.mem_cons_self _ _)]
    omega

/-- A string matching the amended regex is ASCII, so its UTF-8 byte length
is its character count. -/
theorem utf8Length_regexLower {s : Str} (hm : matchesTagRegexLower s = true) :
    utf8Length s = s.length := by
  cases s with
  | nil => rfl
  | cons first rest =>
    cases rest with
    | nil => simp [matchesTagRegexLower] at hm
    | cons r rs =>
      simp only [matchesTagRegexLower, Bool.and_eq_true] at hm
      obtain ⟨⟨h1, h2⟩, h3⟩ := hm
      unfold utf8Length
      apply sum_map_ones
      intro x hx
      rcases List.mem_cons.mp hx with rfl | hx2
      · exact utf8Size_eq_one_of_class (by simp [h1])
      · exact utf8Size_eq_one_of_class
          (class_of_not_bad (regex_tail_all_good (r :: rs) ' ' h2 h3 x hx2))

/-- Claim C1 counterexample: the two-character string `a1` matches the
regular expression `[a-z][a-z0-9-]*[a-z0-9]` of the claim and has length
between 1 and 63, yet `Tag::from_str` rejects it with
`MustEndAlphanumeric('1')`, because the end check accepts only lowercase
letters, not digits. -/
theorem regex_digit_end_counterexample :
    matchesTagRegex (strL "a1") = true ∧ 1 ≤ (strL "a1").length ∧
      (strL "a1").length ≤ 63 ∧
      Tag.from_str (strL "a1") = .error (.MustEndAlphanumeric '1') :=
  ⟨by decide, by decide, by decide, by decide⟩

/-- Claim C1 (amended): for every string of length at most 63 matching
`[a-z][a-z0-9-]*[a-z]` (last character a lowercase ASCII letter),
`Tag::from_str` succeeds and the wrapped string of the returned tag equals
the input exactly. -/
theorem from_str_regex_ok (s : Str) (hm : matchesTagRegexLower s = true)
    (hlen : s.length ≤ 63) : Tag.from_str s = .ok ⟨s⟩ := by
  cases s with
  | nil => simp [matchesTagRegexLower] at hm
  | cons first rest =>
    cases rest with
    | nil => simp [matchesTagRegexLower] at hm
    | cons r rs =>
      have hbytes : utf8Length (first :: r :: rs) = (first :: r :: rs).length :=
        utf8Length_regexLower hm
      simp only [matchesTagRegexLower, Bool.and_eq_true] at hm
      obtain ⟨⟨h1, h2⟩, h3⟩ := hm
      unfold Tag.from_str
      rw [if_neg (by simp),
        if_neg (by rw [hbytes]; simpa [Tag.MAX_LEN, Nat.not_lt] using hlen)]
      simp only [h1, Bool.not_true, Bool.false_eq_true, if_false]
      rw [scan_eq_find]
      have hfind :
          List.find? (fun c => !c.isDigit && !c.isLower && c != '-') (r :: rs) = none := by
        rw [List.find?_eq_none]
        intro x hx
        have hgood := regex_tail_all_good (r :: rs) ' ' h2 h3 x hx
        simp [hgood]
      rw [hfind]
      have h3' : ((r :: rs).getLastD first).isLower = true := by
        simpa [List.getLastD_cons] using h3
      simp only [h3', Bool.not_true, Bool.false_eq_true, if_false]

/-- Witness for the amended C1 at the concrete input `ab`. -/
theorem from_str_regex_ok_witness :
    matchesTagRegexLower (strL "ab") = true ∧ (strL "ab").length ≤ 63 ∧
      Tag.from_str (strL "ab") = .ok ⟨strL "ab"⟩ :=
  ⟨by decide, by decide, from_str_regex_ok (strL "ab") (by decide) (by decide)⟩

/-- Claim C2 counterexample: `Tag::from_str` applied to the single-character
input `-` returns `MustStartAlphabetic('-')` and not
`MustEndAlphanumeric('-')`: the start check rejects every first character
that is not a lowercase letter, including the hyphen. -/
theorem hyphen_error_counterexample :
    Tag.from_str (strL "-") = .error (.MustStartAlphabetic '-') ∧
      Tag.from_str (strL "-") ≠ .error (.MustEndAlphanumeric '-') :=
  ⟨by decide, by decide⟩

/-- Claim C2 (amended): the single-character input `-` fails via the
start-check path, returning `MustStartAlphabetic('-')`. -/
theorem hyphen_start_error :
    Tag.from_str (strL "-") = .error (.MustStartAlphabetic '-') := by decide

/-! ### Helper lemmas about the union engine -/

/-- Membership in a successfully collected tag set corresponds to a
validating name. -/
theorem collectTags_ok_mem {l : List Str} {ts : Finset Tag}
    (h : collectTags l = .ok ts) (t : Tag) :
    t ∈ ts ↔ ∃ n ∈ l, Tag.from_str n = .ok t := by
  induction l generalizing ts with
  | nil =>
    unfold collectTags at h
    injection h with h'
    subst h'
    simp
  | cons n rest ih =>
    unfold collectTags at h
    cases hn : Tag.from_str n with
    | error e => rw [hn] at h; exact Except.noConfusion h
    | ok t0 =>
      rw [hn] at h
      cases hr : collectTags rest with
      | error e => rw [hr] at h; exact Except.noConfusion h
      | ok ts0 =>
        rw [hr] at h
        injection h with h'
        subst h'
        simp only [Finset.mem_insert, List.mem_cons]
        constructor
        · rintro (rfl | ht)
          · exact ⟨n, Or.inl rfl, hn⟩
          · obtain ⟨m, hm, hmt⟩ := (ih hr).mp ht
            exact ⟨m, Or.inr hm, hmt⟩
        · rintro ⟨m, rfl | hm, hmt⟩
          · rw [hn] at hmt
            injection hmt with h2
            exact Or.inl h2.symm
          · exact Or.inr ((ih hr).mpr ⟨m, hm, hmt⟩)

/-- If some name in the list fails tag validation, collecting fails, with
the error of some failing name. -/
theorem collectTags_error_of_mem {l : List Str} {n : Str} {e : TagFromStringError}
    (hm : n ∈ l) (he : Tag.from_str n = .error e) :
    ∃ f, collectTags l = .error f ∧ ∃ m ∈ l, Tag.from_str m = .error f := by
  induction l with
  | nil => cases hm
  | cons a rest ih =>
    unfold collectTags
    cases ha : Tag.from_str a with
    | error g => exact ⟨g, rfl, a, List.mem_cons_self a rest, ha⟩
    | ok t =>
      have hnr : n ∈ rest := by
        rcases List.mem_cons.mp hm with rfl | h
        · rw [ha] at he; exact Except.noConfusion he
        · exact h
      obtain ⟨f, hf, m, hm', hm''⟩ := ih hnr
      rw [hf]
      exact ⟨f, rfl, m, List.mem_cons_of_mem _ hm', hm''⟩

/-- The names of the empty input are empty. -/
theorem unionNames_nil : unionNames [] = [] := rfl

/-- Every name surviving the fragment pipeline is non-empty. -/
theorem mem_unionNames_ne_nil {v n : Str} (h : n ∈ unionNames v) : n ≠ [] := by
  have h1 : n ∈ unionFragments v := List.mem_dedup.mp h
  have h2 := List.mem_filter.mp h1
  intro hnil
  subst hnil
  simp at h2

/-- Membership in a successfully parsed union corresponds to a validating
name among the distinct non-empty fragments. -/
theorem union_from_str_ok_mem {v : Str} {u : TagUnion}
    (h : TagUnion.from_str v = .ok u) (t : Tag) :
    t ∈ u.tags ↔ ∃ n ∈ unionNames v, Tag.from_str n = .ok t := by
  unfold TagUnion.from_str at h
  by_cases hv : v.isEmpty
  · rw [if_pos hv] at h
    injection h with h'
    subst h'
    have hvnil : v = [] := List.isEmpty_iff.mp hv
    subst hvnil
    simp [unionNames_nil]
  · rw [if_neg hv] at h
    by_cases hn : (unionNames v).isEmpty
    · rw [if_pos hn] at h
      injection h with h'
      subst h'
      have : unionNames v = [] := List.isEmpty_iff.mp hn
      simp [this]
    · rw [if_neg hn] at h
      cases hc : collectTags (unionNames v) with
      | error e => rw [hc] at h; exact Except.noConfusion h
      | ok ts =>
        rw [hc] at h
        injection h with h'
        subst h'
        exact collectTags_ok_mem hc t

/-! ### Claim theorems about the union engine -/

/-- Claim C3: for every input on which `TagUnion::from_str` succeeds, the
returned union contains exactly the tags obtained by validating the
distinct non-empty fragments of the input split on `+`. -/
theorem union_from_str_exact (v : Str) (u : TagUnion)
    (h : TagUnion.from_str v = .ok u) (t : Tag) :
    t ∈ u.tags ↔ ∃ n ∈ unionNames v, Tag.from_str n = .ok t :=
  union_from_str_ok_mem h t

/-- Witness for C3: `foo+bar+++baz++` parses to exactly the three-element
union of `foo`, `bar`, `baz`; `foo+foo` to the one-element union of `foo`;
`+++` and the empty input to the empty union; and the membership
characterization holds at `foo+bar+++baz++` for the tag `bar`. -/
theorem union_from_str_exact_witness :
    (TagUnion.from_str (strL "foo+bar+++baz++") =
        .ok ⟨{⟨strL "foo"⟩, ⟨strL "bar"⟩, ⟨strL "baz"⟩}⟩
      ∧ TagUnion.from_str (strL "foo+foo") = .ok ⟨{⟨strL "foo"⟩}⟩
      ∧ TagUnion.from_str (strL "+++") = .ok ⟨∅⟩
      ∧ TagUnion.from_str (strL "") = .ok ⟨∅⟩)
    ∧ ((⟨strL "bar"⟩ : Tag) ∈
        (TagUnion.mk {⟨strL "foo"⟩, ⟨strL "bar"⟩, ⟨strL "baz"⟩}).tags ↔
      ∃ n ∈ unionNames (strL "foo+bar+++baz++"),
        Tag.from_str n = .ok ⟨strL "bar"⟩) :=
  ⟨⟨by decide, by decide, by decide, by decide⟩,
    union_from_str_exact (strL "foo+bar+++baz++")
      ⟨{⟨strL "foo"⟩, ⟨strL "bar"⟩, ⟨strL "baz"⟩}⟩ (by decide) ⟨strL "bar"⟩⟩

/-- Claim C5: if any distinct non-empty fragment of the input fails tag
validation, `TagUnion::from_str` fails with `InvalidTag` wrapping a
tag-level error of one of the fragments, and returns no union. -/
theorem union_from_str_invalid (v frag : Str) (e : TagFromStringError)
    (h1 : frag ∈ unionNames v) (h2 : Tag.from_str frag = .error e) :
    ∃ f, TagUnion.from_str v = .error (.InvalidTag f) ∧
      ∃ n ∈ unionNames v, Tag.from_str n = .error f := by
  obtain ⟨f, hf, m, hm, hmf⟩ := collectTags_error_of_mem h1 h2
  refine ⟨f, ?_, m, hm, hmf⟩
  have hv : ¬ v.isEmpty := by
    intro hv
    have hvnil : v = [] := List.isEmpty_iff.mp hv
    subst hvnil
    rw [unionNames_nil] at h1
    cases h1
  have hn : ¬ (unionNames v).isEmpty := by
    intro hn
    rw [List.isEmpty_iff.mp hn] at h1
    cases h1
  unfold TagUnion.from_str
  rw [if_neg hv, if_neg hn, hf]

/-- Witness for C5: `foo+#baz` fails with
`InvalidTag(MustStartAlphabetic('#'))`. -/
theorem union_from_str_invalid_witness :
    TagUnion.from_str (strL "foo+#baz") =
        .error (.InvalidTag (.MustStartAlphabetic '#'))
      ∧ ∃ f, TagUnion.from_str (strL "foo+#baz") = .error (.InvalidTag f) ∧
          ∃ n ∈ unionNames (strL "foo+#baz"), Tag.from_str n = .error f :=
  ⟨by decide,
    union_from_str_invalid (strL "foo+#baz") (strL "#baz")
      (.MustStartAlphabetic '#') (by decide) (by decide)⟩

/-- Claim C6: a union matches a candidate set exactly when every tag of the
union is a member of the candidate set; the empty union matches every
candidate set; a list of unions matches exactly when at least one union in
it matches, and the empty list matches nothing. -/
theorem matches_set_spec (us : List TagUnion) (u : TagUnion) (c : Finset Tag) :
    (u.matches_set c = true ↔ ∀ t ∈ u.tags, t ∈ c)
      ∧ TagUnion.matches_set ⟨∅⟩ c = true
      ∧ (matchesSetAny us c = true ↔ ∃ w ∈ us, w.matches_set c = true)
      ∧ matchesSetAny [] c = false := by
  refine ⟨?_, ?_, ?_, rfl⟩
  · simp [TagUnion.matches_set, Finset.subset_iff]
  · simp [TagUnion.matches_set]
  · simp [matchesSetAny, List.any_eq_true, TagUnion.matches_set]

/-- Witness for C6: concrete matches from the crate's own examples.  The
unions `foo+bar` and `baz` are tested against the candidate sets `{baz}`,
`{foo, bang}` and the empty set. -/
theorem matches_set_spec_witness :
    (TagUnion.matches_set ⟨{⟨strL "foo"⟩, ⟨strL "bar"⟩}⟩
        {⟨strL "foo"⟩, ⟨strL "bar"⟩, ⟨strL "baz"⟩} = true
      ∧ TagUnion.matches_set ⟨{⟨strL "foo"⟩, ⟨strL "bar"⟩}⟩ {⟨strL "foo"⟩} = false
      ∧ TagUnion.matches_set ⟨∅⟩ (∅ : Finset Tag) = true
      ∧ matchesSetAny [⟨{⟨strL "foo"⟩, ⟨strL "bar"⟩}⟩, ⟨{⟨strL "baz"⟩}⟩]
          {⟨strL "baz"⟩} = true
      ∧ matchesSetAny [⟨{⟨strL "foo"⟩, ⟨strL "bar"⟩}⟩, ⟨{⟨strL "baz"⟩}⟩]
          {⟨strL "foo"⟩, ⟨strL "bang"⟩} = false
      ∧ matchesSetAny ([] : List TagUnion) {⟨strL "baz"⟩} = false)
    ∧ (TagUnion.matches_set ⟨{⟨strL "baz"⟩}⟩ {⟨strL "baz"⟩} = true ↔
        ∀ t ∈ (TagUnion.mk {⟨strL "baz"⟩}).tags, t ∈ ({⟨strL "baz"⟩} : Finset Tag)) :=
  ⟨⟨by decide, by decide, by decide, by decide, by decide, by decide⟩,
    (matches_set_spec [] ⟨{⟨strL "baz"⟩}⟩ {⟨strL "baz"⟩}).1⟩

/-- A built union's member set is the set of the inserted tags. -/
theorem buildUnion_tags (l : List Tag) : (buildUnion l).tags = l.toFinset := by
  suffices h : ∀ (l : List Tag) (s : Finset Tag),
      (l.foldl (fun u t => (TagUnion.insert u t).2) ⟨s⟩).tags = s ∪ l.toFinset by
    simpa using h l ∅
  intro l
  induction l with
  | nil => intro s; simp
  | cons t rest ih =>
    intro s
    rw [List.foldl_cons]
    have hstep : (TagUnion.insert ⟨s⟩ t).2 = (⟨insert t s⟩ : TagUnion) := rfl
    rw [hstep, ih (insert t s), List.toFinset_cons, Finset.insert_union,
      Finset.union_insert]

/-- Claim C7: two unions built by inserting the same member set in any
orders are equal, and the hashing fold, which sorts the members before
folding them into the hasher, yields identical values on them. -/
theorem union_hash_insertion_order (α : Type) (step : α → Tag → α) (init : α)
    (l₁ l₂ : List Tag) (h : l₁.toFinset = l₂.toFinset) :
    buildUnion l₁ = buildUnion l₂ ∧
      TagUnion.hashFold step init (buildUnion l₁) =
        TagUnion.hashFold step init (buildUnion l₂) := by
  have ht : (buildUnion l₁).tags = (buildUnion l₂).tags := by
    rw [buildUnion_tags, buildUnion_tags, h]
  have he : buildUnion l₁ = buildUnion l₂ := congrArg TagUnion.mk ht
  exact ⟨he, by rw [he]⟩

/-- Witness for C7: inserting `foo` then `bar` and inserting `bar` then
`foo` give equal unions and equal hash folds for a concrete hasher. -/
theorem union_hash_insertion_order_witness :
    buildUnion [⟨strL "foo"⟩, ⟨strL "bar"⟩] = buildUnion [⟨strL "bar"⟩, ⟨strL "foo"⟩] ∧
      TagUnion.hashFold (fun a t => a * 31 + t.val.length) 7
          (buildUnion [⟨strL "foo"⟩, ⟨strL "bar"⟩]) =
        TagUnion.hashFold (fun a t => a * 31 + t.val.length) 7
          (buildUnion [⟨strL "bar"⟩, ⟨strL "foo"⟩]) :=
  union_hash_insertion_order Nat (fun a t => a * 31 + t.val.length) 7
    [⟨strL "foo"⟩, ⟨strL "bar"⟩] [⟨strL "bar"⟩, ⟨strL "foo"⟩] (by decide)

/-- Claim C10: a union produced by a successful `TagUnion::from_str` never
contains the empty tag, because empty fragments are discarded before
validation and every validated fragment is wrapped unchanged. -/
theorem union_from_str_no_empty_tag (v : Str) (u : TagUnion)
    (h : TagUnion.from_str v = .ok u) : Tag.EMPTY ∉ u.tags := by
  intro hmem
  obtain ⟨n, hn, hok⟩ := (union_from_str_ok_mem h Tag.EMPTY).mp hmem
  have hval := from_str_ok_val hok
  have hnil : n = [] := by simpa [Tag.EMPTY] using hval.symm
  exact mem_unionNames_ne_nil hn hnil

/-- Witness for C10: the union parsed from `foo` does not contain the
empty tag. -/
theorem union_from_str_no_empty_tag_witness :
    Tag.EMPTY ∉ (TagUnion.mk {⟨strL "foo"⟩}).tags :=
  union_from_str_no_empty_tag (strL "foo") ⟨{⟨strL "foo"⟩}⟩ (by decide)

end JustATag
